import Mathlib

/-!
Verification of the packed concurrent hash counter
(`jellyfish/packed_concurrent_hash_counters.hpp`).

The development shallowly embeds the table's data model and operations:
machine values of the counter type `Val` are natural numbers below `2 ^ V`
(`V` the bit width), a generation (`arys_t`) is a record of its fields, and
the stateful C++ member functions become explicit state-passing Lean
functions.  Claims about sequential executions (one thread, every
compare-and-swap succeeds) are settled against these definitions.

The bit-level key primitive `small_packed_array` is external to this
repository; the operations the core consumes from it are modelled from the
specification's contract and are marked as such in their doc comments.
-/

/-- All-ones pattern of a `V`-bit counter: the value `~0` of the counter
type `Val`, i.e. `2 ^ V - 1`.  The source calls this state "maxed out". -/
def allOnes (V : Nat) : Nat := 2 ^ V - 1

/-- Counter update performed by one successful pass of the
compare-and-swap loop in `arys_t::add` (lines 158-175): `ncval = ~cval`;
if `ncval == 0` the counter is left unchanged (already maxed); if
`ncval < val` the code stores `nval = 0x0` (line 167); otherwise it stores
`cval + val`.  For `c < 2 ^ V` the `V`-bit complement `~c` equals
`allOnes V - c`. -/
def arys_add_val (V c v : Nat) : Nat :=
  let ncval := allOnes V - c
  if ncval = 0 then c
  else if ncval < v then 0
  else c + v

/-- One generation of the table: the fields of `class arys_t`
(lines 93-229) that the verified operations touch.  `keys` holds the
contents of the packed key array (`none` = empty slot), `vals` the counter
array, `copy_chunck` the shared chunk cursor. -/
structure Arys where
  size : Nat
  mod_mask : Nat
  keys : List (Option Nat)
  vals : List Nat
  copy_chunck : Nat
deriving DecidableEq

/-- Modelled from the spec: `small_packed_array::set(i, k)` (the packed-key
primitive is external to this repository).  Install non-zero key `k` at
index `i`: returns true if the slot was empty (and installs `k`) or if it
already held exactly `k`; returns false, changing nothing, if it holds some
other key. -/
def keys_set (keys : List (Option Nat)) (i k : Nat) : Bool × List (Option Nat) :=
  match keys.get? i with
  | some none => (true, keys.set i (some k))
  | some (some q) => (decide (q = k), keys)
  | none => (false, keys)

/-- Modelled from the spec: `small_packed_array::get(i)` — `some k` when
slot `i` is occupied by `k`, `none` when empty. -/
def keys_get (keys : List (Option Nat)) (i : Nat) : Option Nat :=
  (keys.get? i).bind id

/-- `arys_t::add(idx, key, val)` (lines 153-176), sequential semantics:
the packed-key `set` is attempted; on failure the call returns false and
the generation is untouched; on success the counter at `idx` is updated by
the compare-and-swap loop (which, uncontended, performs exactly one
`arys_add_val` step). -/
def Arys.add (a : Arys) (V idx key val : Nat) : Bool × Arys :=
  match keys_set a.keys idx key with
  | (false, _) => (false, a)
  | (true, ks) =>
    let cval := a.vals.getD idx 0
    (true, { a with keys := ks, vals := a.vals.set idx (arys_add_val V cval val) })

/-- `arys_t::get(idx, *key, *val)` (lines 183-192): presence check through
the packed key array, and on success the counter is read. -/
def Arys.get (a : Arys) (i : Nat) : Option (Nat × Nat) :=
  match keys_get a.keys i with
  | none => none
  | some k => some (k, a.vals.getD i 0)

/-- The sequence of `(key, value)` pairs produced by `arys_iterator`
(lines 49-71): `next` advances `pos` from `0` to `size`, yielding every
slot on which `arys_t::get` succeeds. -/
def Arys.iterate (a : Arys) : List (Nat × Nat) :=
  (List.range a.size).filterMap a.get

/-- `arys_t::get_chunck(*start, *end)` (lines 202-213): fetch-and-add the
`copy_chunck` cursor; cursor values `i ≥ 128` yield no chunk; otherwise
the chunk is `[i * (size >> 7), i * (size >> 7) + (size >> 7))`, its end
clamped to `size`. -/
def Arys.get_chunck (a : Arys) : Option (Nat × Nat) × Arys :=
  let i := a.copy_chunck
  let a2 := { a with copy_chunck := i + 1 }
  if 128 ≤ i then (none, a2)
  else
    let size_chunck := a.size >>> 7
    let s := i * size_chunck
    let e := s + size_chunck
    (some (s, if a.size < e then a.size else e), a2)

/-- The loop of `thread_hash_counter::copy_over` (lines 522-528) run by a
single thread that claims every chunk: repeatedly take a chunk and read
every occupied slot in it.  The result is the list of `(key, value)` pairs
the copier passes to `add` on the new generation.  Fueled recursion; fuel
`129` covers all 128 chunks plus the terminating call. -/
def copy_over_go : Nat → Arys → List (Nat × Nat)
  | 0, _ => []
  | fuel + 1, a =>
    match a.get_chunck with
    | (none, _) => []
    | (some (s, e), a2) => ((List.range' s (e - s)).filterMap a2.get) ++ copy_over_go fuel a2

/-- All pairs read from generation `a` by a complete single-threaded
`copy_over`, starting from a rewound chunk cursor. -/
def copy_over_pairs (a : Arys) : List (Nat × Nat) :=
  copy_over_go 129 { a with copy_chunck := 0 }

/-- One-slot generation with an 8-bit counter, initially empty: concrete
input witnessing the overflow behaviour of `arys_t::add`. -/
def arysC1 : Arys := ⟨1, 0, [none], [0], 0⟩

/-- One-slot generation whose single slot holds key `5` with counter `254`
(all-ones minus one for `V = 8`). -/
def arysC2 : Arys := ⟨1, 0, [some 5], [254], 0⟩

/-- Generation of size `8` (a power of two smaller than 128) with one
occupied slot: key `3`, counter `5`. -/
def arysC3 : Arys := ⟨8, 7, [none, none, none, some 3, none, none, none, none],
  [0, 0, 0, 5, 0, 0, 0, 0], 0⟩

/-- Claim C1, evaluation of the code at the failing input: adding `200`
and then `100` to the same key of an empty 8-bit-counter generation leaves
the stored counter at `0`, while the claimed result is
`min(ALL_ONES, 200 + 100) = 255`.  The overflow branch of `arys_t::add`
(line 167) writes `0x0` instead of the all-ones pattern. -/
theorem claim_C1_code_evaluation :
    ((((arysC1.add 8 0 7 200).2).add 8 0 7 100).2).vals.getD 0 0 = 0 ∧
    min (allOnes 8) (200 + 100) = 255 := by decide

/-- Claim C2, evaluation of the code at the failing input: with current
counter `c = 254` and `v = 2` (so `~c = 1 < v`), `arys_t::add` returns
true but stores `0`, not the claimed all-ones `255`; the counter strictly
decreases from `254` to `0`, contradicting the claimed monotonicity. -/
theorem claim_C2_code_evaluation :
    (arysC2.add 8 0 5 2).1 = true ∧
    ((arysC2.add 8 0 5 2).2).vals.getD 0 0 = 0 ∧
    allOnes 8 = 255 ∧
    ((arysC2.add 8 0 5 2).2).vals.getD 0 0 < 254 := by decide

set_option maxRecDepth 8192 in
/-- Claim C3, evaluation of the code at the failing input: a populated
generation of size `8` iterates to the single pair `(3, 5)`, yet a
complete `copy_over` of it reads no pair at all — `size >> 7 = 0`, so all
128 chunks are empty and the stored count is lost across the resize. -/
theorem claim_C3_code_evaluation :
    copy_over_pairs arysC3 = [] ∧ arysC3.iterate = [(3, 5)] := by decide

/-- Every generation smaller than 128 has empty chunks: auxiliary to
claim C9. -/
theorem copy_over_go_small (fuel : Nat) :
    ∀ a : Arys, a.size < 128 → copy_over_go fuel a = [] := by
  induction fuel with
  | zero => intro a _; rfl
  | succ n ih =>
    intro a h
    show (match a.get_chunck with
      | (none, _) => []
      | (some (s, e), a2) => ((List.range' s (e - s)).filterMap a2.get) ++ copy_over_go n a2) = []
    rcases Nat.lt_or_ge a.copy_chunck 128 with hc | hc
    · have hsc : a.size >>> 7 = 0 := by
        rw [Nat.shiftRight_eq_div_pow]
        exact Nat.div_eq_of_lt h
      have hck : a.get_chunck =
          (some (0, 0), { a with copy_chunck := a.copy_chunck + 1 }) := by
        rw [Arys.get_chunck]
        simp [Nat.not_le.mpr hc, hsc]
      rw [hck]
      simp [ih { a with copy_chunck := a.copy_chunck + 1 } h]
    · have hck : a.get_chunck =
          (none, { a with copy_chunck := a.copy_chunck + 1 }) := by
        rw [Arys.get_chunck]
        simp [hc]
      rw [hck]

/-- Claim C9: for every generation of size strictly below 128, the chunk
size `size >> 7` is zero, every chunk `get_chunck` returns is `(0, 0)`,
and a complete `copy_over` of the generation reads no pair at all. -/
theorem claim_C9_small_generation (a : Arys) (h : a.size < 128) :
    (∀ c, c < 128 → (({ a with copy_chunck := c } : Arys).get_chunck).1 = some (0, 0)) ∧
    copy_over_pairs a = [] := by
  constructor
  · intro c hc
    have hsc : a.size >>> 7 = 0 := by
      rw [Nat.shiftRight_eq_div_pow]
      exact Nat.div_eq_of_lt h
    rw [Arys.get_chunck]
    simp [Nat.not_le.mpr hc, hsc]
  · exact copy_over_go_small 129 _ h

/-- Witness for claim C9 at the concrete size-8 generation `arysC3`. -/
theorem claim_C9_small_generation_witness :
    (∀ c, c < 128 →
      (({ arysC3 with copy_chunck := c } : Arys).get_chunck).1 = some (0, 0)) ∧
    copy_over_pairs arysC3 = [] :=
  claim_C9_small_generation arysC3 (by decide)

/-- The size-rounding loop shared by both `arys_t` constructors
(lines 114-115 and 132-133): `size = 1; while (_size > size) size <<= 1`.
Fueled recursion on the loop counter; fuel `s` suffices because the
running size doubles starting from `1` and `2 ^ s > s`. -/
def size_loop : Nat → Nat → Nat → Nat
  | 0, _, size => size
  | f + 1, s, size => if size < s then size_loop f s (size * 2) else size

/-- The size actually stored by the constructors for a requested size
`s`. -/
def round_size (s : Nat) : Nat := size_loop s s 1

/-- The loop result is at least the requested size, provided the fuel
could double the running size up to the request. -/
theorem size_loop_ge (f : Nat) : ∀ s size : Nat, s ≤ 2 ^ f * size →
    s ≤ size_loop f s size := by
  induction f with
  | zero => intro s size h; simpa [size_loop] using h
  | succ n ih =>
    intro s size h
    rw [size_loop]
    by_cases hlt : size < s
    · rw [if_pos hlt]
      apply ih
      calc s ≤ 2 ^ (n + 1) * size := h
        _ = 2 ^ n * (size * 2) := by ring
    · rw [if_neg hlt]
      exact Nat.not_lt.mp hlt

/-- The loop keeps the running size a power of two. -/
theorem size_loop_pow (f : Nat) : ∀ s j : Nat, ∃ j2, size_loop f s (2 ^ j) = 2 ^ j2 := by
  induction f with
  | zero => intro s j; exact ⟨j, rfl⟩
  | succ n ih =>
    intro s j
    rw [size_loop]
    by_cases hlt : 2 ^ j < s
    · rw [if_pos hlt]
      have : (2 ^ j) * 2 = 2 ^ (j + 1) := by ring
      rw [this]
      exact ih s (j + 1)
    · rw [if_neg hlt]
      exact ⟨j, rfl⟩

/-- The loop never overshoots a power of two that already accommodates the
request and the running size. -/
theorem size_loop_le (f : Nat) : ∀ s j m : Nat, 2 ^ j ≤ 2 ^ m → s ≤ 2 ^ m →
    size_loop f s (2 ^ j) ≤ 2 ^ m := by
  induction f with
  | zero => intro s j m hj _; exact hj
  | succ n ih =>
    intro s j m hj hs
    rw [size_loop]
    by_cases hlt : 2 ^ j < s
    · rw [if_pos hlt]
      have hjm : j < m := by
        have h2 : 2 ^ j < 2 ^ m := Nat.lt_of_lt_of_le hlt hs
        exact (Nat.pow_lt_pow_iff_right (by norm_num)).mp h2
      have : (2 ^ j) * 2 = 2 ^ (j + 1) := by ring
      rw [this]
      exact ih s (j + 1) m (Nat.pow_le_pow_right (by norm_num) hjm) hs
    · rw [if_neg hlt]
      exact hj

/-- `round_size` produces a power of two. -/
theorem round_size_pow (s : Nat) : ∃ j, round_size s = 2 ^ j := by
  have h := size_loop_pow s s 0
  simpa [round_size] using h

/-- `round_size` is at least the request. -/
theorem round_size_ge (s : Nat) : s ≤ round_size s := by
  apply size_loop_ge
  simpa using Nat.le_of_lt (Nat.lt_two_pow s)

/-- `round_size` is the least power of two accommodating the request. -/
theorem round_size_min (s m : Nat) (h : s ≤ 2 ^ m) : round_size s ≤ 2 ^ m := by
  have := size_loop_le s s 0 m (Nat.one_le_two_pow) h
  simpa [round_size] using this

/-- On an exact power of two the rounding loop is the identity. -/
theorem round_size_two_pow (j : Nat) : round_size (2 ^ j) = 2 ^ j :=
  Nat.le_antisymm (round_size_min (2 ^ j) j le_rfl) (round_size_ge (2 ^ j))

/-- Size and mod-mask stored by the owned-memory constructor
`arys_t(item_len, size, prev)` (lines 112-116): the requested size is
rounded up by the loop and `mod_mask = size - 1`. -/
def arys_ctor_size (s : Nat) : Nat × Nat := (round_size s, round_size s - 1)

/-- Size computation of the mmap-import constructor
`arys_t(item_len, size, map)` (lines 130-138): the same rounding loop
runs, but a rounded size different from the request throws
`bad_size_exception`; no rounding is performed in this path. -/
def arys_map_ctor_size (s : Nat) : Except Unit (Nat × Nat) :=
  if s ≠ round_size s then Except.error ()
  else Except.ok (round_size s, round_size s - 1)

/-- Claim C6: the owned constructor accepts any requested size and stores
the least power of two accommodating it (with `mod_mask = size - 1`),
while the mmap-import constructor succeeds exactly on powers of two and
performs no rounding when it succeeds. -/
theorem claim_C6_ctor_sizes (s : Nat) :
    (∃ j, (arys_ctor_size s).1 = 2 ^ j) ∧
    s ≤ (arys_ctor_size s).1 ∧
    (∀ m, s ≤ 2 ^ m → (arys_ctor_size s).1 ≤ 2 ^ m) ∧
    (arys_ctor_size s).2 = (arys_ctor_size s).1 - 1 ∧
    ((arys_map_ctor_size s).isOk = true ↔ ∃ j, s = 2 ^ j) ∧
    (∀ sz mm, arys_map_ctor_size s = Except.ok (sz, mm) → sz = s ∧ mm = s - 1) := by
  refine ⟨round_size_pow s, round_size_ge s, ?_, rfl, ?_, ?_⟩
  · intro m hm
    exact round_size_min s m hm
  · constructor
    · intro hok
      by_cases hne : s = round_size s
      · obtain ⟨j, hj⟩ := round_size_pow s
        exact ⟨j, hne.trans hj⟩
      · rw [arys_map_ctor_size, if_pos hne] at hok
        exact absurd hok (by decide)
    · rintro ⟨j, rfl⟩
      rw [arys_map_ctor_size, if_neg (not_not_intro (round_size_two_pow j).symm)]
      rfl
  · intro sz mm hok
    by_cases hne : s = round_size s
    · rw [arys_map_ctor_size, if_neg (not_not_intro hne)] at hok
      injection hok with h
      cases h
      exact ⟨hne.symm, by rw [← hne]⟩
    · rw [arys_map_ctor_size, if_pos hne] at hok
      exact Except.noConfusion hok

/-- Witness for claim C6 at the concrete requested sizes 5 (rounded to 8)
and at the induced mmap rejection of 5. -/
theorem claim_C6_ctor_sizes_witness :
    (∃ j, (arys_ctor_size 5).1 = 2 ^ j) ∧ 5 ≤ (arys_ctor_size 5).1 ∧
    (arys_ctor_size 5).1 ≤ 2 ^ 3 ∧ (arys_map_ctor_size 5).isOk = false := by
  obtain ⟨h1, h2, h3, _, _, _⟩ := claim_C6_ctor_sizes 5
  exact ⟨h1, h2, h3 3 (by norm_num), by decide⟩

/-- Claim C7: `arys_t::add(idx, k, v)` returns false exactly when the
packed-key `set` finds slot `idx` held by a key different from `k`, and in
that case the generation — key array and every counter — is completely
unchanged. -/
theorem claim_C7_add_failure (a : Arys) (V idx k v : Nat) (h : idx < a.keys.length) :
    ((a.add V idx k v).1 = false ↔ ∃ q, a.keys[idx]? = some (some q) ∧ q ≠ k) ∧
    ((a.add V idx k v).1 = false → (a.add V idx k v).2 = a) := by
  match hx : a.keys[idx]? with
  | none =>
    rw [List.getElem?_eq_none_iff] at hx
    exact absurd h (Nat.not_lt.mpr hx)
  | some none =>
    have hkeq : a.keys.get? idx = some none := by
      rw [List.get?_eq_getElem?, hx]
    have hset : keys_set a.keys idx k = (true, a.keys.set idx (some k)) := by
      rw [keys_set, hkeq]
    constructor
    · rw [Arys.add, hset]
      simp [hx]
    · rw [Arys.add, hset]
      simp
  | some (some q) =>
    have hkeq : a.keys.get? idx = some (some q) := by
      rw [List.get?_eq_getElem?, hx]
    have hset : keys_set a.keys idx k = (decide (q = k), a.keys) := by
      rw [keys_set, hkeq]
    by_cases hqk : q = k
    · constructor
      · rw [Arys.add, hset]
        simp [hx, hqk]
      · rw [Arys.add, hset]
        simp [hqk]
    · constructor
      · rw [Arys.add, hset]
        simp only [hqk, decide_False]
        exact iff_of_true trivial ⟨q, rfl, hqk⟩
      · rw [Arys.add, hset]
        simp [hqk]

/-- Witness for claim C7: inserting key `9` into the slot of `arysC2`
holding key `5` fails and leaves the generation unchanged. -/
theorem claim_C7_add_failure_witness :
    ((arysC2.add 8 0 9 1).1 = false ↔ ∃ q, arysC2.keys[0]? = some (some q) ∧ q ≠ 9) ∧
    ((arysC2.add 8 0 9 1).1 = false → (arysC2.add 8 0 9 1).2 = arysC2) :=
  claim_C7_add_failure arysC2 8 0 9 1 (by decide)

/-- Byte image produced by `arys_t::write` (lines 148-151): the packed key
buffer followed by the raw counter array of `size * sizeof(Val)` bytes.
Modelled from the spec: the bit packing done by `small_packed_array::write`
is external to this repository, so the image keeps the two buffers
abstractly, exactly as written. -/
structure ArysImage where
  key_data : List (Option Nat)
  val_data : List Nat
deriving DecidableEq

/-- `arys_t::write(out)` (lines 148-151): serialize the key buffer, then
the counter array. -/
def Arys.write (a : Arys) : ArysImage := ⟨a.keys, a.vals⟩

/-- The mmap-import constructor `arys_t(item_len, size, map)`
(lines 130-139) applied to a written image under declared size `s`: the
size must be an exact power of two (`bad_size_exception` otherwise), then
the two buffers are reinterpreted in place — keys first, counters at
offset `get_data_len()`. -/
def arys_from_map (s : Nat) (img : ArysImage) : Except Unit Arys :=
  if s ≠ round_size s then Except.error ()
  else Except.ok ⟨round_size s, round_size s - 1, img.key_data, img.val_data, 0⟩

/-- Claim C8: serializing a generation with `write` and reconstructing a
generation from the image via the mmap constructor succeeds (every
generation's size is a power of two) and yields a table whose iteration
produces exactly the same sequence — in particular the same multiset — of
`(key, value)` pairs as iterating the original. -/
theorem claim_C8_write_roundtrip (a : Arys) (j : Nat) (h : a.size = 2 ^ j) :
    ∃ b : Arys, arys_from_map a.size a.write = Except.ok b ∧ b.iterate = a.iterate := by
  refine ⟨⟨a.size, a.size - 1, a.keys, a.vals, 0⟩, ?_, ?_⟩
  · have hr : round_size a.size = a.size := by rw [h, round_size_two_pow]
    rw [arys_from_map, if_neg (not_not_intro hr.symm), hr]
    rfl
  · rfl

/-- Witness for claim C8 at the concrete size-8 generation `arysC3`. -/
theorem claim_C8_write_roundtrip_witness :
    ∃ b : Arys, arys_from_map arysC3.size arysC3.write = Except.ok b ∧
      b.iterate = arysC3.iterate :=
  claim_C8_write_roundtrip arysC3 3 (by decide)

/-- Triangular reprobe offset: after `n` probe steps of
`thread_hash_counter::add`, the total offset added to the home index is
`0 + 1 + 2 + ... + n`, since the step size equals the running `reprobe`
counter. -/
def tri : Nat → Nat
  | 0 => 0
  | n + 1 => tri n + (n + 1)

/-- Slot probed at step `n` by the reprobe rule of
`thread_hash_counter::add` (line 483): `idx = (idx + reprobe) & mod_mask`
with `reprobe` incremented to `1, 2, 3, ...`. -/
def probe_idx (mod_mask idx0 : Nat) : Nat → Nat
  | 0 => idx0
  | n + 1 => (probe_idx mod_mask idx0 n + (n + 1)) &&& mod_mask

/-- Splitting a triangular number at an intermediate point. -/
theorem tri_add (a : Nat) : ∀ b : Nat, tri (a + b) = tri a + a * b + tri b := by
  intro b
  induction b with
  | zero => simp [tri]
  | succ m ih =>
    have : a + (m + 1) = (a + m) + 1 := by omega
    rw [this, tri, ih, tri, Nat.mul_succ]
    omega

/-- Twice a triangular number. -/
theorem two_mul_tri (n : Nat) : 2 * tri n = n * (n + 1) := by
  induction n with
  | zero => rfl
  | succ m ih =>
    rw [tri, Nat.mul_add, ih]
    ring

/-- Triangular numbers with indices below `2 ^ k` are pairwise distinct
modulo `2 ^ k`: the key fact behind the full coverage of the reprobe
sequence. -/
theorem tri_mod_inj (k : Nat) : ∀ i j : Nat, i < 2 ^ k → j < 2 ^ k →
    tri i % 2 ^ k = tri j % 2 ^ k → i = j := by
  have main : ∀ i j : Nat, j ≤ i → i < 2 ^ k → j < 2 ^ k →
      tri i % 2 ^ k = tri j % 2 ^ k → i = j := by
    intro i j hji hi hj h
    obtain ⟨e, rfl⟩ := Nat.exists_eq_add_of_le hji
    rcases Nat.eq_zero_or_pos e with he | he
    · omega
    exfalso
    have hmod : tri j + (j * e + tri e) ≡ tri j + 0 [MOD 2 ^ k] := by
      have : tri (j + e) = tri j + (j * e + tri e) := by
        rw [tri_add]
        omega
      rw [← this, Nat.add_zero]
      exact h
    have hdvd1 : 2 ^ k ∣ j * e + tri e :=
      (Nat.modEq_zero_iff_dvd).mp (Nat.ModEq.add_left_cancel' (tri j) hmod)
    have hdvd2 : 2 ^ (k + 1) ∣ e * (2 * j + e + 1) := by
      have heq : e * (2 * j + e + 1) = 2 * (j * e + tri e) := by
        have h2 : 2 * tri e = e * (e + 1) := two_mul_tri e
        calc e * (2 * j + e + 1) = 2 * (j * e) + e * (e + 1) := by ring
          _ = 2 * (j * e) + 2 * tri e := by rw [h2]
          _ = 2 * (j * e + tri e) := by ring
      rw [heq, pow_succ, Nat.mul_comm (2 ^ k) 2]
      exact Nat.mul_dvd_mul_left 2 hdvd1
    rcases Nat.even_or_odd e with hpar | hpar
    · have hodd : Odd (2 * j + e + 1) := by
        rcases hpar with ⟨m, hm⟩
        exact ⟨j + m, by omega⟩
      have hcop : Nat.Coprime (2 ^ (k + 1)) (2 * j + e + 1) :=
        Nat.Coprime.pow_left (k + 1) ((Nat.coprime_two_left).mpr hodd)
      have : 2 ^ (k + 1) ∣ e := hcop.dvd_of_dvd_mul_right hdvd2
      have hle : 2 ^ (k + 1) ≤ e := Nat.le_of_dvd he this
      have : e < 2 ^ (k + 1) := by
        calc e ≤ j + e := Nat.le_add_left e j
          _ < 2 ^ k := hi
          _ < 2 ^ (k + 1) := by
            rw [pow_succ]
            omega
      omega
    · have hcop : Nat.Coprime (2 ^ (k + 1)) e :=
        Nat.Coprime.pow_left (k + 1) ((Nat.coprime_two_left).mpr hpar)
      have : 2 ^ (k + 1) ∣ 2 * j + e + 1 := hcop.dvd_of_dvd_mul_left hdvd2
      have hle : 2 ^ (k + 1) ≤ 2 * j + e + 1 := Nat.le_of_dvd (by omega) this
      have h1 : j + e < 2 ^ k := hi
      have h2 : j < 2 ^ k := hj
      have : 2 * j + e + 1 < 2 ^ (k + 1) := by
        rw [pow_succ]
        omega
      omega
  intro i j hi hj h
  rcases Nat.le_total j i with hji | hij
  · exact main i j hji hi hj h
  · exact (main j i hij hj hi h.symm).symm

/-- The probed slot is the home index plus the triangular offset, modulo
the (power-of-two) table size. -/
theorem probe_idx_eq (k idx0 : Nat) (h : idx0 < 2 ^ k) :
    ∀ n, probe_idx (2 ^ k - 1) idx0 n = (idx0 + tri n) % 2 ^ k := by
  intro n
  induction n with
  | zero =>
    show idx0 = (idx0 + tri 0) % 2 ^ k
    rw [tri, Nat.add_zero, Nat.mod_eq_of_lt h]
  | succ m ih =>
    show (probe_idx (2 ^ k - 1) idx0 m + (m + 1)) &&& (2 ^ k - 1) =
      (idx0 + tri (m + 1)) % 2 ^ k
    rw [ih, Nat.and_pow_two_sub_one_eq_mod, Nat.mod_add_mod, tri]
    congr 1
    omega

/-- Claim C4: for every power-of-two table size `S = 2 ^ k` and every
start index below `S`, the reprobe sequence `idx, idx+1, idx+3, idx+6, ...`
(triangular increments, masked by `mod_mask = S - 1`) visits every slot of
the table within the first `S` probes. -/
theorem claim_C4_reprobe_coverage (k idx0 : Nat) (h : idx0 < 2 ^ k) :
    ∀ t, t < 2 ^ k → ∃ n, n < 2 ^ k ∧ probe_idx (2 ^ k - 1) idx0 n = t := by
  intro t ht
  have hpos : 0 < 2 ^ k := Nat.pos_pow_of_pos k (by norm_num)
  let f : Fin (2 ^ k) → Fin (2 ^ k) := fun n =>
    ⟨(idx0 + tri n.val) % 2 ^ k, Nat.mod_lt _ hpos⟩
  have hinj : Function.Injective f := by
    intro a b hab
    have hmods : (idx0 + tri a.val) % 2 ^ k = (idx0 + tri b.val) % 2 ^ k :=
      congrArg Fin.val hab
    have : tri a.val % 2 ^ k = tri b.val % 2 ^ k :=
      Nat.ModEq.add_left_cancel' idx0 hmods
    exact Fin.ext (tri_mod_inj k a.val b.val a.isLt b.isLt this)
  have hsurj : Function.Surjective f := Finite.surjective_of_injective hinj
  obtain ⟨n, hn⟩ := hsurj ⟨t, ht⟩
  refine ⟨n.val, n.isLt, ?_⟩
  rw [probe_idx_eq k idx0 h n.val]
  exact congrArg Fin.val hn

/-- Witness for claim C4: table of size `4`, start index `1`; slot `3` is
reached within the first four probes. -/
theorem claim_C4_reprobe_coverage_witness :
    ∃ n, n < 2 ^ 2 ∧ probe_idx (2 ^ 2 - 1) 1 n = 3 :=
  claim_C4_reprobe_coverage 2 1 (by decide) 3 (by decide)

/-- Reference count and next pointer of one generation — the `count` and
`next` fields of `arys_t` (lines 102-103).  Generations live in a heap
list indexed by creation order (index 0 = oldest generation); a deleted
generation is `none`. -/
structure ArysNode where
  count : Nat
  next : Option Nat
deriving DecidableEq

/-- Linking and refcount effect of the owned constructor
`arys_t(item_len, size, prev)` (lines 112-121): the new generation starts
with `count = 0` and `next = NULL`; when chained to a predecessor it
increments its own count (the link from the previous arys counts as one
reference, line 118) and installs itself as `prev->next` (line 119).
Returns the heap and the index of the new generation. -/
def arys_new (heap : List (Option ArysNode)) (prev : Option Nat) :
    List (Option ArysNode) × Nat :=
  match prev with
  | none => (heap ++ [some ⟨0, none⟩], heap.length)
  | some p =>
    match heap[p]? with
    | some (some nd) =>
      ((heap.set p (some { nd with next := some heap.length })) ++ [some ⟨1, none⟩],
        heap.length)
    | _ => (heap ++ [some ⟨1, none⟩], heap.length)

/-- `arys_t::ref_inc` (lines 221-224) as a heap update. -/
def ref_inc (heap : List (Option ArysNode)) (i : Nat) : List (Option ArysNode) :=
  match heap[i]? with
  | some (some nd) => heap.set i (some { nd with count := nd.count + 1 })
  | _ => heap

/-- `arys_t::ref_dec` (lines 225-228) as a heap update, with the returned
count discarded — as `thread_hash_counter::resize` does at line 505. -/
def ref_dec_store (heap : List (Option ArysNode)) (i : Nat) : List (Option ArysNode) :=
  match heap[i]? with
  | some (some nd) => heap.set i (some { nd with count := nd.count - 1 })
  | _ => heap

/-- Chain effect of the successful path of `thread_hash_counter::resize`
(lines 503-506): construct the doubled generation chained to `carys`,
`ref_inc` the new generation (new head reference), `ref_dec` the old head.
Returns the heap and the index of the new head. -/
def resize_chain (heap : List (Option ArysNode)) (carys : Nat) :
    List (Option ArysNode) × Nat :=
  let hn := arys_new heap (some carys)
  (ref_dec_store (ref_inc hn.1 hn.2) carys, hn.2)

/-- The next pointer of generation `i`, when it is alive. -/
def next_of (heap : List (Option ArysNode)) (i : Nat) : Option Nat :=
  match heap[i]? with
  | some (some nd) => nd.next
  | _ => none

/-- `thread_hash_counter::release(cary)` (lines 243-249): decrement the
refcount; as long as the decrement yields zero, delete the generation and
continue with its `next` pointer (whose own decrement on the following
loop test consumes the link reference the deleted generation held on it).
Returns the heap and the freed indices in deletion order.  Fueled; the C
code would dereference a null `cary` if the last generation of the chain
died, the model stops there instead. -/
def release_go (fuel : Nat) (heap : List (Option ArysNode)) (oi : Option Nat) :
    List (Option ArysNode) × List Nat :=
  match fuel, oi with
  | 0, _ => (heap, [])
  | _ + 1, none => (heap, [])
  | f + 1, some i =>
    match heap[i]? with
    | some (some nd) =>
      if nd.count - 1 = 0 then
        let r := release_go f (heap.set i none) nd.next
        (r.1, i :: r.2)
      else (heap.set i (some { nd with count := nd.count - 1 }), [])
    | _ => (heap, [])

/-- A heap is forward-chained when every live generation's next pointer
is either the generation created just after it or null — the shape
produced by `arys_new` and `resize_chain`. -/
def chain_ok (heap : List (Option ArysNode)) : Bool :=
  (List.range heap.length).all fun j =>
    match heap[j]? with
    | some (some nd) => decide (nd.next = some (j + 1)) || decide (nd.next = none)
    | _ => true

/-- Pointwise reading of `chain_ok`. -/
theorem chain_ok_spec (heap : List (Option ArysNode)) (h : chain_ok heap = true) :
    ∀ j nd, heap[j]? = some (some nd) → nd.next = some (j + 1) ∨ nd.next = none := by
  intro j nd hj
  have hlt : j < heap.length := by
    by_contra hge
    rw [List.getElem?_eq_none (Nat.le_of_not_lt hge)] at hj
    cases hj
  rw [chain_ok, List.all_eq_true] at h
  have hx := h j (List.mem_range.mpr hlt)
  rw [hj] at hx
  rcases Bool.or_eq_true_iff.mp hx with hb | hb
  · exact Or.inl (of_decide_eq_true hb)
  · exact Or.inr (of_decide_eq_true hb)

/-- Deleting a generation preserves the forward-chain shape. -/
theorem chain_shape_set_none (heap : List (Option ArysNode)) (i : Nat)
    (h : ∀ j nd, heap[j]? = some (some nd) → nd.next = some (j + 1) ∨ nd.next = none) :
    ∀ j nd, (heap.set i none)[j]? = some (some nd) →
      nd.next = some (j + 1) ∨ nd.next = none := by
  intro j nd hj
  by_cases hij : j = i
  · subst hij
    rcases Nat.lt_or_ge j heap.length with hlt | hge
    · rw [List.getElem?_set_eq_of_lt _ hlt] at hj
      cases hj
    · rw [List.getElem?_eq_none (by simpa using hge)] at hj
      cases hj
  · rw [List.getElem?_set_ne (fun hh => hij hh.symm)] at hj
    exact h j nd hj

/-- On a forward-chained heap, a release cascade frees a consecutive
ascending run of generation indices starting at the released generation:
auxiliary to claim C5. -/
theorem release_go_range (fuel : Nat) :
    ∀ (heap : List (Option ArysNode)) (i : Nat),
    (∀ j nd, heap[j]? = some (some nd) → nd.next = some (j + 1) ∨ nd.next = none) →
    ∃ n, (release_go fuel heap (some i)).2 = List.range' i n := by
  induction fuel with
  | zero => intro heap i _; exact ⟨0, rfl⟩
  | succ f ih =>
    intro heap i h
    show ∃ n, (match heap[i]? with
      | some (some nd) =>
        if nd.count - 1 = 0 then
          let r := release_go f (heap.set i none) nd.next
          (r.1, i :: r.2)
        else (heap.set i (some { nd with count := nd.count - 1 }), [])
      | _ => (heap, [])).2 = List.range' i n
    match hx : heap[i]? with
    | none => exact ⟨0, rfl⟩
    | some none => exact ⟨0, rfl⟩
    | some (some nd) =>
      by_cases hz : nd.count - 1 = 0
      · rcases h i nd hx with hn1 | hn1
        · obtain ⟨n, hn⟩ := ih (heap.set i none) (i + 1) (chain_shape_set_none heap i h)
          refine ⟨n + 1, ?_⟩
          show (if nd.count - 1 = 0 then
              let r := release_go f (heap.set i none) nd.next
              (r.1, i :: r.2)
            else (heap.set i (some { nd with count := nd.count - 1 }), [])).2 =
            List.range' i (n + 1)
          rw [if_pos hz, hn1]
          show i :: (release_go f (heap.set i none) (some (i + 1))).2 = List.range' i (n + 1)
          rw [hn, List.range'_succ]
        · refine ⟨1, ?_⟩
          show (if nd.count - 1 = 0 then
              let r := release_go f (heap.set i none) nd.next
              (r.1, i :: r.2)
            else (heap.set i (some { nd with count := nd.count - 1 }), [])).2 =
            List.range' i 1
          rw [if_pos hz, hn1]
          show i :: (release_go f (heap.set i none) none).2 = List.range' i 1
          have hemp : (release_go f (heap.set i none) none).2 = [] := by
            match f with
            | 0 => rfl
            | _ + 1 => rfl
          rw [hemp, List.range'_succ]
          rfl
      · refine ⟨0, ?_⟩
        show (if nd.count - 1 = 0 then
            let r := release_go f (heap.set i none) nd.next
            (r.1, i :: r.2)
          else (heap.set i (some { nd with count := nd.count - 1 }), [])).2 =
          List.range' i 0
        rw [if_neg hz]
        rfl

/-- The concrete generation chain produced by: table construction
(generation 0 plus the head reference, lines 324-325), one thread handle
caching generation 0 (lines 263-264), then one resize (lines 503-506). -/
def chainC5 : List (Option ArysNode) × Nat :=
  let h0 := arys_new [] none
  let h1 := ref_inc h0.1 h0.2
  let h2 := ref_inc h1 h0.2
  resize_chain h2 h0.2

/-- Claim C5 is false on the code: after one resize, the older generation
0 points to the younger generation 1 (`prev->next = this`, line 119) and
the newest generation's next is null — the opposite of the claimed
direction in which every generation's next refers to the older one (null
for the oldest). -/
theorem claim_C5_counterexample :
    next_of chainC5.1 0 = some 1 ∧ next_of chainC5.1 1 = none ∧
    ¬ (next_of chainC5.1 0 = none ∧ next_of chainC5.1 1 = some 0) := by decide

/-- Claim C5 (amended): the next pointer refers to the next younger
generation (null for the newest) — as on the concrete chain after one
resize — and on any forward-chained heap a release cascade frees a
consecutive ascending run of generations starting at the released one:
in age order, oldest of the run first, each freed exactly once. -/
theorem claim_C5_release_cascade (heap : List (Option ArysNode)) (i fuel : Nat)
    (h : chain_ok heap = true) :
    (next_of chainC5.1 0 = some 1 ∧ next_of chainC5.1 1 = none) ∧
    ∃ n, (release_go fuel heap (some i)).2 = List.range' i n ∧
      (release_go fuel heap (some i)).2.Nodup := by
  refine ⟨by decide, ?_⟩
  obtain ⟨n, hn⟩ := release_go_range fuel heap i (chain_ok_spec heap h)
  exact ⟨n, hn, by rw [hn]; exact List.nodup_range' i n⟩

/-- Witness for claim C5 on the chain after one resize, released twice
(the handle's release after copy-over, then the head release): both
generations are freed, oldest first. -/
theorem claim_C5_release_cascade_witness :
    (next_of chainC5.1 0 = some 1 ∧ next_of chainC5.1 1 = none) ∧
    ∃ n, (release_go 8 chainC5.1 (some 0)).2 = List.range' 0 n ∧
      (release_go 8 chainC5.1 (some 0)).2.Nodup :=
  claim_C5_release_cascade chainC5.1 0 8 (by decide)

/-- Outcome of the probe loop of `thread_hash_counter::add`
(lines 466-484): a successful insert, a break after a successful
non-blocking resize (line 474), a break into the blocking resize
(lines 477-478), or fuel exhaustion of the model. -/
inductive ProbeOutcome where
  | ok (a : Arys)
  | resized
  | blockedResize
  | fuelOut
deriving DecidableEq

/-- The probe loop of `thread_hash_counter::add` (lines 466-484) on a
fixed current generation, sequentially.  State: current index, the local
`reprobe` counter, the local `emax_reprobe` limit and a resize-attempt
counter; `locked att` reports whether the `att`-th non-blocking resize
attempt found the resize mutex contended (the trylock of line 494).
On exhaustion of the limit: a free mutex means a successful resize
(break); a contended mutex escalates the local limit to
`4 * max_reprobe` once (line 480) and blocks on the mutex the next time
(line 477). -/
def probe_loop (V : Nat) (locked : Nat → Bool) (max_reprobe : Nat) (k v : Nat) :
    Nat → Arys → Nat → Nat → Nat → Nat → ProbeOutcome
  | 0, _, _, _, _, _ => .fuelOut
  | fuel + 1, a, idx, reprobe, emax, att =>
    match a.add V idx k v with
    | (true, a2) => .ok a2
    | (false, _) =>
      if reprobe + 1 > emax then
        if !(locked att) then .resized
        else if emax > max_reprobe then .blockedResize
        else probe_loop V locked max_reprobe k v fuel a
          ((idx + (reprobe + 1)) &&& a.mod_mask) (reprobe + 1) (4 * max_reprobe) (att + 1)
      else probe_loop V locked max_reprobe k v fuel a
        ((idx + (reprobe + 1)) &&& a.mod_mask) (reprobe + 1) emax att

/-- The per-thread handle fields relevant to the reprobe limit: the
`max_reprobe` and `emax_reprobe` members of `thread_hash_counter`
(line 236), both initialized to `_max_reprobe` by the constructor
(lines 260-261). -/
structure Handle where
  max_reprobe : Nat
  emax_reprobe : Nat
deriving DecidableEq

/-- `thread_hash_counter::add(k, v)` (lines 439-486) on a fixed current
generation: line 444 zeroes the local `reprobe` counter and line 445
declares a local variable `emax_reprobe` initialized from the member
`max_reprobe`, shadowing the member field of the same name; the home
index is `hash & mod_mask` (line 464) where `hash` is the MurmurHash64A
value of the key (line 447), supplied here as a parameter.  Returns the
loop outcome together with the handle, no field of which the function
writes. -/
def thread_add (h : Handle) (V : Nat) (locked : Nat → Bool) (a : Arys)
    (hash k v fuel : Nat) : ProbeOutcome × Handle :=
  let emax_local := h.max_reprobe
  (probe_loop V locked h.max_reprobe k v fuel a (hash &&& a.mod_mask) 0 emax_local 0, h)

/-- Claim C10: `thread_hash_counter::add` never modifies the handle's
`emax_reprobe` member — the escalation to `4 * max_reprobe` is performed
on the local that shadows it — so the handle comes back unchanged, the
outcome is independent of the member's value, and the effective reprobe
limit starts again at `max_reprobe` on every call. -/
theorem claim_C10_emax_member_frame (m e1 e2 V : Nat) (locked : Nat → Bool)
    (a : Arys) (hash k v fuel : Nat) :
    (thread_add ⟨m, e1⟩ V locked a hash k v fuel).2 = ⟨m, e1⟩ ∧
    (thread_add ⟨m, e1⟩ V locked a hash k v fuel).1 =
      (thread_add ⟨m, e2⟩ V locked a hash k v fuel).1 ∧
    (thread_add ⟨m, e1⟩ V locked a hash k v fuel).1 =
      probe_loop V locked m k v fuel a (hash &&& a.mod_mask) 0 m 0 :=
  ⟨rfl, rfl, rfl⟩
